import Mathlib

/-!
Verification of the lasspia preprocessing routine (src/routines/preprocessing.py)
against its natural-language specification.

The embedding models real-valued quantities by rationals (exact arithmetic);
floating-point non-finite values (NaN, ±inf), which numpy produces on division
by a zero weight sum, are modelled by the `none` value of `Option ℚ`.
-/

namespace Lasspia

/-- A 1D binning specification: a bin count and a numeric range, as supplied by
the configuration (for example binningZ() in src/configs/cmassS.py returns
bins = 900 and range = (0.43, 0.7)). -/
structure BinSpec where
  bins : Nat
  lo : ℚ
  hi : ℚ
deriving DecidableEq

/-- Whether a value is counted by numpy's histogram routines for this binning:
values outside the closed range [lo, hi] are dropped from the histogram. -/
def inR (s : BinSpec) (v : ℚ) : Bool :=
  decide (s.lo ≤ v) && decide (v ≤ s.hi)

/-- The bin index of a value under uniform binning: floor((v-lo)·bins/(hi-lo)),
clipped to the last bin so that v = hi lands in bin bins-1.  This is numpy's
uniform-bin assignment for np.histogram/np.histogram2d.  The same assignment
embeds La.utils.toBins.  Modelled from the spec: utils.toBins is not under
src/; section 4.1 (binIndex) specifies this right-open uniform-bin convention
with the final bin closed on the right. -/
def binIdx (s : BinSpec) (v : ℚ) : Nat :=
  min (Rat.floor ((v - s.lo) * (s.bins : ℚ) / (s.hi - s.lo))).toNat (s.bins - 1)

/-- One catalog point: sky position, redshift and the three weight fields the
catalog wrapper provides (the spec's CatalogView parallel arrays). -/
structure CatPoint where
  ra : ℚ
  dec : ℚ
  z : ℚ
  weight : ℚ
  weightNoZ : ℚ
  weightZ : ℚ
deriving DecidableEq

/-- sum(ctlg.weightZ), the normalization denominator used by pdfZ. -/
def wZsum (c : List CatPoint) : ℚ := (c.map CatPoint.weightZ).sum

/-- Division as the source's floating point performs it: a zero denominator
yields a non-finite value (NaN or ±inf), modelled by none; otherwise the exact
quotient. -/
def fdiv (a b : ℚ) : Option ℚ :=
  if b = 0 then none else some (a / b)

/-- Addition propagating non-finite values. -/
def oadd : Option ℚ → Option ℚ → Option ℚ
  | some a, some b => some (a + b)
  | _, _ => none

/-- Sum of a list of possibly non-finite values. -/
def osum (l : List (Option ℚ)) : Option ℚ := l.foldr oadd (some 0)

/-- The (z, normalized weight) pairs handed to np.histogram by pdfZ:
weights = ctlg.weightZ / sum(ctlg.weightZ). -/
def zWeighted (c : List CatPoint) : List (ℚ × Option ℚ) :=
  c.map (fun p => (p.z, fdiv p.weightZ (wZsum c)))

/-- np.histogram frequency of bin i: the sum of the weights of the in-range
values assigned to bin i. -/
def ofrq (s : BinSpec) (l : List (ℚ × Option ℚ)) (i : Nat) : Option ℚ :=
  osum ((l.filter (fun vw => inR s vw.1 && (binIdx s vw.1 == i))).map Prod.snd)

/-- The bins+1 histogram edges returned by np.histogram: evenly spaced from lo
to hi. -/
def edgesList (s : BinSpec) : List ℚ :=
  (List.range (s.bins + 1)).map
    (fun i => s.lo + (s.hi - s.lo) * ((i : Nat) : ℚ) / ((s.bins : Nat) : ℚ))

/-- The list of the bins histogram frequencies of pdfZ. -/
def frqList (s : BinSpec) (c : List CatPoint) : List (Option ℚ) :=
  (List.range s.bins).map (ofrq s (zWeighted c))

/-- The rows of the pdfZ table: zip(edges, frq) pairs the bins+1 edges with the
bins frequencies; zip truncates to the shorter list. -/
def pdfZ (s : BinSpec) (c : List CatPoint) : List (ℚ × Option ℚ) :=
  List.zip (edgesList s) (frqList s c)

/-- The finite-weight histogram frequency: same as ofrq when every weight is
finite.  Used to state exact-arithmetic facts about pdfZ. -/
def qfrq (s : BinSpec) (l : List (ℚ × ℚ)) (i : Nat) : ℚ :=
  ((l.filter (fun vw => inR s vw.1 && (binIdx s vw.1 == i))).map Prod.snd).sum

/-- The three signed integer storage widths preprocessing.iType selects among. -/
inductive IntWidth
  | i16
  | i32
  | i64
deriving DecidableEq

/-- The largest value representable by the width (np.iinfo(t).max). -/
def IntWidth.maxVal : IntWidth → Int
  | .i16 => 32767
  | .i32 => 2147483647
  | .i64 => 9223372036854775807

/-- preprocessing.iType: np.int16 if iMax < np.iinfo(np.int16).max else
np.int32 if iMax < np.iinfo(np.int32).max else np.int64.  Note the strict
comparisons against the maxima. -/
def iType (iMax : Int) : IntWidth :=
  if iMax < 32767 then .i16 else if iMax < 2147483647 then .i32 else .i64

/-- The three binnings the preprocessing routine reads from its configuration
(binningRA, binningDec, binningZ). -/
structure Config where
  ra : BinSpec
  dec : BinSpec
  z : BinSpec
deriving DecidableEq

/-- np.histogram2d cell (i, j) over (x, y, weight) triples: the weighted count
of the in-range points assigned to that cell; out-of-range points are dropped. -/
def hist2 (sx sy : BinSpec) (pts : List (ℚ × ℚ × ℚ)) (i j : Nat) : ℚ :=
  ((pts.filter (fun t => inR sx t.1 && inR sy t.2.1 &&
      (binIdx sx t.1 == i) && (binIdx sy t.2.1 == j))).map (fun t => t.2.2)).sum

/-- angR: the 2D angular histogram of the random catalog, weighted by
weightNoZ. -/
def angR (cfg : Config) (R : List CatPoint) (i j : Nat) : ℚ :=
  hist2 cfg.ra cfg.dec (R.map (fun p => (p.ra, p.dec, p.weightNoZ))) i j

/-- angD: the 2D angular histogram of the observed catalog, weighted by
weight. -/
def angD (cfg : Config) (D : List CatPoint) (i j : Nat) : ℚ :=
  hist2 cfg.ra cfg.dec (D.map (fun p => (p.ra, p.dec, p.weight))) i j

/-- mask: np.logical_or(angR > 0, angD > 0) at cell (i, j). -/
def maskB (cfg : Config) (R D : List CatPoint) (i j : Nat) : Bool :=
  decide (0 < angR cfg R i j) || decide (0 < angD cfg D i j)

/-- mask.ravel() at flat index r: the mask of shape (ra.bins, dec.bins)
flattened in C order, so r encodes the cell (r / dec.bins, r % dec.bins). -/
def maskRavel (cfg : Config) (R D : List CatPoint) (r : Nat) : Bool :=
  maskB cfg R D (r / cfg.dec.bins) (r % cfg.dec.bins)

/-- The flat indices of the masked cells in increasing order: the rows kept by
frq[mask.ravel()]; the position of a flat index in this list is the row number
of that cell in the ang table. -/
def maskedCells (cfg : Config) (R D : List CatPoint) : List Nat :=
  (List.range (cfg.ra.bins * cfg.dec.bins)).filter (maskRavel cfg R D)

/-- The (binRA, binDec) rows of the ang table: xx[mask] and yy[mask] flatten
the meshgrid and the mask in the same C order. -/
def angRows (cfg : Config) (R D : List CatPoint) : List (Nat × Nat) :=
  (maskedCells cfg R D).map (fun r => (r / cfg.dec.bins, r % cfg.dec.bins))

/-- jRA = La.utils.toBins(ctlgD.ra, binningRA). -/
def jRA (cfg : Config) (p : CatPoint) : Nat := binIdx cfg.ra p.ra

/-- jDec = La.utils.toBins(ctlgD.dec, binningDec). -/
def jDec (cfg : Config) (p : CatPoint) : Nat := binIdx cfg.dec p.dec

/-- jZ = La.utils.toBins(ctlgD.z, binningZ). -/
def jZ (cfg : Config) (p : CatPoint) : Nat := binIdx cfg.z p.z

/-- jAng = binsDec * jRA + jDec, the aligned flat angular index of a point. -/
def jAng (cfg : Config) (p : CatPoint) : Nat :=
  cfg.dec.bins * jRA cfg p + jDec cfg p

/-- Whether some observed point lands on sparse coordinate (r, c): the
structural nonzero pattern of csr_matrix((w, (jAng, jZ))). -/
def occupied (cfg : Config) (D : List CatPoint) (r c : Nat) : Bool :=
  D.any (fun p => jAng cfg p == r && jZ cfg p == c)

/-- The stored coordinates of the CSR matrix built by calcAngZD, in canonical
order (ascending row, then ascending column, i.e. ascending flat key
r * z.bins + c): one entry per (jAng, jZ) pair hit by at least one point;
duplicates are summed by the construction, and entries whose values sum to
zero stay stored (scipy keeps explicit zeros). -/
def csrKeys (cfg : Config) (D : List CatPoint) : List (Nat × Nat) :=
  ((List.range (cfg.ra.bins * cfg.dec.bins * cfg.z.bins)).filter
      (fun k => occupied cfg D (k / cfg.z.bins) (k % cfg.z.bins))).map
    (fun k => (k / cfg.z.bins, k % cfg.z.bins))

/-- The summed value of the CSR entry at coordinate rc when the points are
weighted by f: the duplicate-summing of csr_matrix construction. -/
def accumF (cfg : Config) (D : List CatPoint) (f : CatPoint → ℚ) (rc : Nat × Nat) : ℚ :=
  ((D.filter (fun p => jAng cfg p == rc.1 && jZ cfg p == rc.2)).map f).sum

/-- The count accumulation: calcAngZD(ctlgD.weight) sums the weights falling
on each coordinate. -/
def accumW (cfg : Config) (D : List CatPoint) (rc : Nat × Nat) : ℚ :=
  accumF cfg D (fun p => p.weight) rc

/-- The err2 accumulation: calcAngZD(np.square(ctlgD.weight)) sums the squared
weights. -/
def accumW2 (cfg : Config) (D : List CatPoint) (rc : Nat × Nat) : ℚ :=
  accumF cfg D (fun p => p.weight * p.weight) rc

/-- The stored coordinates surviving the row selection frq[mask.ravel()],
still in canonical order. -/
def maskedKeys (cfg : Config) (R D : List CatPoint) : List (Nat × Nat) :=
  (csrKeys cfg D).filter (fun rc => maskRavel cfg R D rc.1)

/-- The row number, after mask selection, of the cell with flat index r: its
position among the masked cells, which is also its row in the ang table. -/
def rowOf (cfg : Config) (R D : List CatPoint) (r : Nat) : Nat :=
  (maskedCells cfg R D).indexOf r

/-- angzD.data, the count column of the angzD table: one value per stored
coordinate of the masked matrix, explicit zeros included. -/
def countCol (cfg : Config) (R D : List CatPoint) : List ℚ :=
  (maskedKeys cfg R D).map (accumW cfg D)

/-- err2.data, the err2 column of the angzD table. -/
def err2Col (cfg : Config) (R D : List CatPoint) : List ℚ :=
  (maskedKeys cfg R D).map (accumW2 cfg D)

/-- The coordinates reported by angzD.nonzero(): the stored coordinates whose
count value is nonzero (nonzero() filters explicit zeros out; .data does not). -/
def nzKeys (cfg : Config) (R D : List CatPoint) : List (Nat × Nat) :=
  (maskedKeys cfg R D).filter (fun rc => decide (accumW cfg D rc ≠ 0))

/-- The iAlign column of the angzD table: the renumbered (masked) rows of the
nonzero coordinates. -/
def iAlignCol (cfg : Config) (R D : List CatPoint) : List Nat :=
  (nzKeys cfg R D).map (fun rc => rowOf cfg R D rc.1)

/-- The iZ column of the angzD table. -/
def iZCol (cfg : Config) (R D : List CatPoint) : List Nat :=
  (nzKeys cfg R D).map (fun rc => rc.2)

/-- The FITS binary-table column format codes the source uses in its
fits.Column declarations: I is a 16-bit signed integer, J a 32-bit signed
integer, E a 32-bit float, D a 64-bit float. -/
inductive Tform
  | fmtI
  | fmtJ
  | fmtE
  | fmtD
deriving DecidableEq

/-- The storage width of the format in bits. -/
def Tform.bits : Tform → Nat
  | .fmtI => 16
  | .fmtJ => 32
  | .fmtE => 32
  | .fmtD => 64

/-- Whether the format is an integer format. -/
def Tform.isInteger : Tform → Bool
  | .fmtI => true
  | .fmtJ => true
  | .fmtE => false
  | .fmtD => false

/-- The largest integer the format stores exactly as an integer column;
0 for the floating-point formats. -/
def Tform.intMax : Tform → Int
  | .fmtI => 32767
  | .fmtJ => 2147483647
  | .fmtE => 0
  | .fmtD => 0

/-- The column names appearing in the ang and angzD tables. -/
inductive ColName
  | binRA
  | binDec
  | countR
  | countD
  | iAlign
  | iZ
  | countZD
  | err2
deriving DecidableEq

/-- The ang table's column formats, exactly as declared in preprocessing.ang:
binRA I, binDec I, countR I, countD E. -/
def angColumns : List (ColName × Tform) :=
  [(.binRA, .fmtI), (.binDec, .fmtI), (.countR, .fmtI), (.countD, .fmtE)]

/-- The angzD table's column formats, exactly as declared in preprocessing.ang:
iAlign J, iZ I, count E, err2 E. -/
def angzDColumns : List (ColName × Tform) :=
  [(.iAlign, .fmtJ), (.iZ, .fmtI), (.countZD, .fmtE), (.err2, .fmtE)]

/-! Concrete inputs used by counterexamples and witnesses. -/

/-- Convenience constructor for a catalog point. -/
def mkPt (ra dec z w wNoZ wZ : ℚ) : CatPoint :=
  { ra := ra, dec := dec, z := z, weight := w, weightNoZ := wNoZ, weightZ := wZ }

/-- A 2 x 2 x 2 example configuration, each axis binned over (0, 2). -/
def cfgEx : Config :=
  { ra := ⟨2, 0, 2⟩, dec := ⟨2, 0, 2⟩, z := ⟨2, 0, 2⟩ }

/-- Example random catalog: one point in cell (0, 0). -/
def ctlgRex : List CatPoint := [mkPt (1/2) (1/2) (1/2) 1 1 1]

/-- Example observed catalog whose only point has weight zero. -/
def ctlgDzero : List CatPoint := [mkPt (1/2) (1/2) (1/2) 0 1 1]

/-- Example observed catalog with two positive-weight points in distinct
cells. -/
def ctlgDpos : List CatPoint :=
  [mkPt (1/2) (1/2) (1/2) 1 1 1, mkPt (3/2) (1/2) (1/2) 2 1 1]

/-- The example observed catalog with its two points swapped. -/
def ctlgDswap : List CatPoint :=
  [mkPt (3/2) (1/2) (1/2) 2 1 1, mkPt (1/2) (1/2) (1/2) 1 1 1]

/-- A 3-bin redshift binning over (0, 3), the spec's scenario 7. -/
def zspec3 : BinSpec := ⟨3, 0, 3⟩

/-- The random catalog of the spec's scenario 7: z = 0.5, 1.5, 2.5, each with
weightZ = 1. -/
def ctlgScenario7 : List CatPoint :=
  [mkPt 0 0 (1/2) 1 1 1, mkPt 0 0 (3/2) 1 1 1, mkPt 0 0 (5/2) 1 1 1]

/-- A 2-bin redshift binning over (0, 1). -/
def zspec2 : BinSpec := ⟨2, 0, 1⟩

/-- A catalog with positive weightZ sum but one z value outside the binning
range (0, 1). -/
def ctlgOutOfRange : List CatPoint :=
  [mkPt 0 0 (1/2) 1 1 1, mkPt 0 0 5 1 1 1]

/-- A non-empty catalog whose weightZ sum is zero. -/
def ctlgZeroWeight : List CatPoint := [mkPt 0 0 (1/2) 1 1 0]

/-- The property claim C1 asserts of the angzD table, following the spec's
words: the count and err2 columns are, positionally, the accumulated weight
sums and squared-weight sums of exactly the keys reported by nonzero() — so
the k-th table row (iAlign, iZ, count, err2) describes the k-th nonzero masked
key — and every emitted key survives the occupancy mask with a nonzero
accumulated value. -/
def angzDRowsMatchSpec (cfg : Config) (R D : List CatPoint) : Prop :=
  countCol cfg R D = (nzKeys cfg R D).map (accumW cfg D) ∧
  err2Col cfg R D = (nzKeys cfg R D).map (accumW2 cfg D) ∧
  ∀ rc ∈ nzKeys cfg R D, maskRavel cfg R D rc.1 = true ∧ accumW cfg D rc ≠ 0

/-- The column alignment property of claim C10: the four angzD columns have
equal length and the k-th entries of count and err2 are the accumulated sums
for the cell named by the k-th (iAlign, iZ) pair. -/
def angzDColsAligned (cfg : Config) (R D : List CatPoint) : Prop :=
  (iAlignCol cfg R D).length = (countCol cfg R D).length ∧
  (iZCol cfg R D).length = (countCol cfg R D).length ∧
  (err2Col cfg R D).length = (countCol cfg R D).length ∧
  ∀ k, k < (nzKeys cfg R D).length →
    (countCol cfg R D).getD k 0 = accumW cfg D ((nzKeys cfg R D).getD k (0, 0)) ∧
    (err2Col cfg R D).getD k 0 = accumW2 cfg D ((nzKeys cfg R D).getD k (0, 0)) ∧
    (iAlignCol cfg R D).getD k 0 = rowOf cfg R D ((nzKeys cfg R D).getD k (0, 0)).1 ∧
    (iZCol cfg R D).getD k 0 = ((nzKeys cfg R D).getD k (0, 0)).2

/-- The join property of claim C2 at one nonzero coordinate rc: its renumbered
row is a valid index into the ang table's row list, the ang row found there
ravels back to rc's flat angular index, and every observed point contributing
to that flat index sits in exactly the (binRA, binDec) cell recorded in that
ang row. -/
def joinsBack (cfg : Config) (R D : List CatPoint) (rc : Nat × Nat) : Prop :=
  rowOf cfg R D rc.1 < (angRows cfg R D).length ∧
  cfg.dec.bins * ((angRows cfg R D).getD (rowOf cfg R D rc.1) (0, 0)).1
      + ((angRows cfg R D).getD (rowOf cfg R D rc.1) (0, 0)).2 = rc.1 ∧
  ∀ p ∈ D, jAng cfg p = rc.1 →
    jRA cfg p = ((angRows cfg R D).getD (rowOf cfg R D rc.1) (0, 0)).1 ∧
    jDec cfg p = ((angRows cfg R D).getD (rowOf cfg R D rc.1) (0, 0)).2

instance decAngzDRowsMatchSpec (cfg : Config) (R D : List CatPoint) :
    Decidable (angzDRowsMatchSpec cfg R D) := by
  unfold angzDRowsMatchSpec
  exact inferInstance

instance decAngzDColsAligned (cfg : Config) (R D : List CatPoint) :
    Decidable (angzDColsAligned cfg R D) := by
  unfold angzDColsAligned
  exact inferInstance

instance decJoinsBack (cfg : Config) (R D : List CatPoint) (rc : Nat × Nat) :
    Decidable (joinsBack cfg R D rc) := by
  unfold joinsBack
  exact inferInstance

/-! ### Helper lemmas -/

theorem binIdx_lt (s : BinSpec) (h : 1 ≤ s.bins) (v : ℚ) : binIdx s v < s.bins := by
  have h1 : binIdx s v ≤ s.bins - 1 := min_le_right _ _
  omega

theorem mem_csrKeys_occupied {cfg : Config} {D : List CatPoint} {rc : Nat × Nat}
    (h : rc ∈ csrKeys cfg D) : occupied cfg D rc.1 rc.2 = true := by
  unfold csrKeys at h
  obtain ⟨k, hk, rfl⟩ := List.mem_map.mp h
  exact (List.mem_filter.mp hk).2

theorem mem_csrKeys_lt {cfg : Config} {D : List CatPoint} {rc : Nat × Nat}
    (h : rc ∈ csrKeys cfg D) : rc.1 < cfg.ra.bins * cfg.dec.bins := by
  unfold csrKeys at h
  obtain ⟨k, hk, rfl⟩ := List.mem_map.mp h
  have hklt := List.mem_range.mp (List.mem_filter.mp hk).1
  rcases Nat.eq_zero_or_pos cfg.z.bins with hz | hz
  · rw [hz, Nat.mul_zero] at hklt
    omega
  · exact (Nat.div_lt_iff_lt_mul hz).mpr hklt

theorem occupied_exists {cfg : Config} {D : List CatPoint} {r c : Nat}
    (h : occupied cfg D r c = true) : ∃ p ∈ D, jAng cfg p = r ∧ jZ cfg p = c := by
  unfold occupied at h
  obtain ⟨p, hp, hpred⟩ := List.any_eq_true.mp h
  rw [Bool.and_eq_true, beq_iff_eq, beq_iff_eq] at hpred
  exact ⟨p, hp, hpred⟩

theorem accumW_pos {cfg : Config} {D : List CatPoint} (hw : ∀ p ∈ D, 0 < p.weight)
    {rc : Nat × Nat} (h : rc ∈ csrKeys cfg D) : 0 < accumW cfg D rc := by
  obtain ⟨p, hp, h1, h2⟩ := occupied_exists (mem_csrKeys_occupied h)
  have hpf : p ∈ D.filter (fun q => jAng cfg q == rc.1 && jZ cfg q == rc.2) := by
    rw [List.mem_filter]
    refine ⟨hp, ?_⟩
    rw [Bool.and_eq_true, beq_iff_eq, beq_iff_eq]
    exact ⟨h1, h2⟩
  unfold accumW accumF
  apply List.sum_pos
  · intro x hx
    obtain ⟨q, hq, rfl⟩ := List.mem_map.mp hx
    exact hw q (List.mem_filter.mp hq).1
  · exact List.ne_nil_of_mem (List.mem_map_of_mem _ hpf)

theorem nzKeys_eq_maskedKeys (cfg : Config) (R : List CatPoint) {D : List CatPoint}
    (hw : ∀ p ∈ D, 0 < p.weight) : nzKeys cfg R D = maskedKeys cfg R D := by
  unfold nzKeys
  apply List.filter_eq_self.mpr
  intro rc hrc
  have hcsr : rc ∈ csrKeys cfg D := (List.mem_filter.mp hrc).1
  rw [decide_eq_true_iff]
  exact ne_of_gt (accumW_pos hw hcsr)

theorem getD_map_lt {α β : Type} (f : α → β) (l : List α) (k : Nat)
    (hk : k < l.length) (d : β) (d0 : α) : (l.map f).getD k d = f (l.getD k d0) := by
  rw [List.getD_eq_getElem?_getD, List.getD_eq_getElem?_getD, List.getElem?_map,
    List.getElem?_eq_getElem hk]
  simp

theorem any_map_general {α β : Type} (l : List α) (f : α → β) (p : β → Bool) :
    (l.map f).any p = l.any (fun x => p (f x)) := by
  induction l with
  | nil => rfl
  | cons x l ih => rw [List.map_cons, List.any_cons, List.any_cons, ih]

/-! ### Claim C8: integer width selection (iType) -/

/-- Claim C8, counterexample: the claim says iType returns the smallest width
that can hold the maximum value, in particular the 16-bit type at
m = 32767; but iType compares strictly, so at 32767 — a value int16 holds —
it returns the 32-bit type. -/
theorem iType_boundary_cex :
    iType 32767 = IntWidth.i32 ∧ (32767 : Int) ≤ IntWidth.maxVal IntWidth.i16 := by
  constructor
  · decide
  · decide

/-- Claim C8, amended: iType selects by strict comparison against the type
maxima — i16 iff m < 32767, i32 iff 32767 ≤ m < 2147483647, i64 iff
2147483647 ≤ m — so at each boundary value it returns the next wider type,
one step wider than the smallest type that can hold m. -/
theorem iType_strict_boundaries (m : Int) :
    (iType m = IntWidth.i16 ↔ m < 32767) ∧
    (iType m = IntWidth.i32 ↔ 32767 ≤ m ∧ m < 2147483647) ∧
    (iType m = IntWidth.i64 ↔ 2147483647 ≤ m) := by
  unfold iType
  by_cases h1 : m < 32767
  · rw [if_pos h1]
    refine ⟨⟨fun _ => h1, fun _ => rfl⟩, ⟨fun h => ?_, fun h => ?_⟩,
      ⟨fun h => ?_, fun h => ?_⟩⟩
    · exact absurd h (by decide)
    · omega
    · exact absurd h (by decide)
    · omega
  · by_cases h2 : m < 2147483647
    · rw [if_neg h1, if_pos h2]
      refine ⟨⟨fun h => absurd h (by decide), fun h => absurd h h1⟩,
        ⟨fun _ => ⟨by omega, h2⟩, fun _ => rfl⟩,
        ⟨fun h => absurd h (by decide), fun h => ?_⟩⟩
      omega
    · rw [if_neg h1, if_neg h2]
      refine ⟨⟨fun h => absurd h (by decide), fun h => absurd h h1⟩,
        ⟨fun h => absurd h (by decide), fun h => absurd h.2 h2⟩,
        ⟨fun _ => by omega, fun _ => rfl⟩⟩

/-! ### Claim C7: persisted column formats of the ang table -/

/-- Claim C7, counterexample: the countR column is declared with FITS format
I, which is a 16-bit integer, not a 32-bit one. -/
theorem countR_not_int32 :
    angColumns.lookup ColName.countR = some Tform.fmtI ∧
    Tform.bits Tform.fmtI ≠ 32 := by
  decide

/-- Claim C7, amended: in the persisted ang table countR is stored as a 16-bit
integer (format I), the same width as binRA and binDec, while countD is a
32-bit float (format E); so only weighted random-catalog cell counts up to the
int16 maximum 32767 are representable without truncation. -/
theorem ang_column_formats :
    angColumns.lookup ColName.countR = some Tform.fmtI ∧
    Tform.isInteger Tform.fmtI = true ∧
    Tform.bits Tform.fmtI = 16 ∧
    Tform.intMax Tform.fmtI = 32767 ∧
    angColumns.lookup ColName.binRA = some Tform.fmtI ∧
    angColumns.lookup ColName.binDec = some Tform.fmtI ∧
    angColumns.lookup ColName.countD = some Tform.fmtE ∧
    Tform.isInteger Tform.fmtE = false ∧
    Tform.bits Tform.fmtE = 32 := by
  decide

/-! ### pdfZ structure lemmas -/

theorem zip_map_fst {α β : Type} : ∀ (a : List α) (b : List β),
    (a.zip b).map Prod.fst = a.take b.length
  | [], _ => by simp
  | _ :: _, [] => by simp
  | x :: a, y :: b => by
    rw [List.zip_cons_cons, List.map_cons, zip_map_fst a b, List.length_cons,
      List.take_succ_cons]

theorem zip_map_snd {α β : Type} : ∀ (a : List α) (b : List β),
    (a.zip b).map Prod.snd = b.take a.length
  | [], _ => by simp
  | _ :: _, [] => by simp
  | x :: a, y :: b => by
    rw [List.zip_cons_cons, List.map_cons, zip_map_snd a b, List.length_cons,
      List.take_succ_cons]

theorem edgesList_length (s : BinSpec) : (edgesList s).length = s.bins + 1 := by
  rw [edgesList, List.length_map, List.length_range]

theorem frqList_length (s : BinSpec) (c : List CatPoint) :
    (frqList s c).length = s.bins := by
  rw [frqList, List.length_map, List.length_range]

theorem pdfZ_map_snd (s : BinSpec) (c : List CatPoint) :
    (pdfZ s c).map Prod.snd = frqList s c := by
  rw [pdfZ, zip_map_snd, edgesList_length]
  exact List.take_of_length_le (by rw [frqList_length]; omega)

theorem pdfZ_map_fst (s : BinSpec) (c : List CatPoint) :
    (pdfZ s c).map Prod.fst = (edgesList s).take s.bins := by
  rw [pdfZ, zip_map_fst, frqList_length]

theorem pdfZ_length (s : BinSpec) (c : List CatPoint) :
    (pdfZ s c).length = s.bins := by
  rw [pdfZ, List.length_zip, edgesList_length, frqList_length]
  omega

/-! ### Claim C6: row count of the pdfZ table -/

/-- Claim C6, counterexample: for a 3-bin z binning the pdfZ table has 3 rows,
not bins + 1 = 4; zip(edges, frq) truncates to the shorter list. -/
theorem pdfZ_not_bins_plus_one :
    (pdfZ zspec3 ctlgScenario7).length ≠ zspec3.bins + 1 := by
  with_unfolding_all decide

/-- Claim C6, amended: for every z binning and every random catalog the pdfZ
table has exactly bins rows; zipping the bins+1 edges with the bins
frequencies truncates to bins rows, pairing the i-th low edge with the i-th
bin probability and silently discarding the final upper edge. -/
theorem pdfZ_row_count (s : BinSpec) (c : List CatPoint) :
    (pdfZ s c).length = s.bins ∧
    (pdfZ s c).map Prod.fst = (edgesList s).take s.bins ∧
    (pdfZ s c).map Prod.snd = frqList s c :=
  ⟨pdfZ_length s c, pdfZ_map_fst s c, pdfZ_map_snd s c⟩

/-! ### Claim C5: zero weight sum produces NaN, not an error -/

theorem ofrq_all_none (s : BinSpec) (i : Nat) :
    ∀ (l : List (ℚ × Option ℚ)), (∀ vw ∈ l, vw.2 = none) →
      ofrq s l i =
        if l.any (fun vw => inR s vw.1 && (binIdx s vw.1 == i)) then none
        else some 0
  | [], _ => by simp [ofrq, osum]
  | vw :: l, h => by
    have htail := ofrq_all_none s i l (fun x hx => h x (List.mem_cons_of_mem _ hx))
    have hvw : vw.2 = none := h vw (List.mem_cons_self _ _)
    by_cases hc : (inR s vw.1 && (binIdx s vw.1 == i)) = true
    · rw [ofrq, List.filter_cons, if_pos hc, List.map_cons, hvw]
      rw [List.any_cons, hc, Bool.true_or, if_pos rfl]
      rfl
    · rw [ofrq, List.filter_cons, if_neg hc, List.any_cons,
        Bool.eq_false_iff.mpr hc, Bool.false_or]
      exact htail

/-- Claim C5, counterexample: a non-empty random catalog whose weightZ sum is
zero makes pdfZ emit a NaN probability (the none value) in the occupied bin;
no error of any kind is raised — the source has no EmptyWeightSum guard. -/
theorem pdfZ_zero_weight_no_error :
    wZsum ctlgZeroWeight = 0 ∧ ctlgZeroWeight ≠ [] ∧
    none ∈ (pdfZ zspec2 ctlgZeroWeight).map Prod.snd := by
  with_unfolding_all decide

/-- Claim C5, amended: given a catalog whose weightZ sum is zero, the pdfZ
builder raises no error and produces a full table whose probability entries
are non-finite (NaN, modelled by none) for every bin containing an in-range
point, and zero for the empty bins. -/
theorem pdfZ_zero_weight_sum_nan (s : BinSpec) (c : List CatPoint)
    (h0 : wZsum c = 0) :
    (pdfZ s c).map Prod.snd =
      (List.range s.bins).map
        (fun i =>
          if c.any (fun p => inR s p.z && (binIdx s p.z == i)) then none
          else some 0) := by
  rw [pdfZ_map_snd, frqList]
  apply List.map_congr_left
  intro i _
  have hnone : ∀ vw ∈ zWeighted c, vw.2 = (none : Option ℚ) := by
    intro vw hvw
    obtain ⟨p, hp, rfl⟩ := List.mem_map.mp hvw
    simp [fdiv, h0]
  have hcond :
      (zWeighted c).any (fun vw => inR s vw.1 && (binIdx s vw.1 == i)) =
        c.any (fun p => inR s p.z && (binIdx s p.z == i)) := by
    rw [zWeighted, any_map_general]
  rw [ofrq_all_none s i (zWeighted c) hnone, hcond]

/-- Witness for claim C5's amended theorem at the concrete zero-weight
catalog. -/
theorem pdfZ_zero_weight_sum_nan_witness :
    (pdfZ zspec2 ctlgZeroWeight).map Prod.snd =
      (List.range zspec2.bins).map
        (fun i =>
          if ctlgZeroWeight.any (fun p => inR zspec2 p.z && (binIdx zspec2 p.z == i))
          then none else some 0) :=
  pdfZ_zero_weight_sum_nan zspec2 ctlgZeroWeight (by with_unfolding_all decide)

/-! ### Claim C4: occupancy of the ang table -/

/-- Claim C4: a cell (binRA, binDec) is a row of the ang table exactly when it
is a valid cell whose weighted random count or weighted observed count is
strictly positive, and no row with both counts zero ever appears. -/
theorem ang_rows_iff_occupied (cfg : Config) (R D : List CatPoint) (i j : Nat) :
    ((i, j) ∈ angRows cfg R D ↔
      i < cfg.ra.bins ∧ j < cfg.dec.bins ∧
        (0 < angR cfg R i j ∨ 0 < angD cfg D i j)) ∧
    ¬((i, j) ∈ angRows cfg R D ∧ angR cfg R i j = 0 ∧ angD cfg D i j = 0) := by
  have hiff : (i, j) ∈ angRows cfg R D ↔
      i < cfg.ra.bins ∧ j < cfg.dec.bins ∧
        (0 < angR cfg R i j ∨ 0 < angD cfg D i j) := by
    constructor
    · intro h
      obtain ⟨r, hr, hrij⟩ := List.mem_map.mp h
      have hrm := List.mem_filter.mp hr
      have hrlt : r < cfg.ra.bins * cfg.dec.bins := List.mem_range.mp hrm.1
      have hny : 0 < cfg.dec.bins := by
        rcases Nat.eq_zero_or_pos cfg.dec.bins with hz | hz
        · rw [hz, Nat.mul_zero] at hrlt
          omega
        · exact hz
      have hi : i = r / cfg.dec.bins := by
        have := congrArg Prod.fst hrij
        exact this.symm
      have hj : j = r % cfg.dec.bins := by
        have := congrArg Prod.snd hrij
        exact this.symm
      subst hi
      subst hj
      refine ⟨(Nat.div_lt_iff_lt_mul hny).mpr hrlt, Nat.mod_lt _ hny, ?_⟩
      have hmb : maskB cfg R D (r / cfg.dec.bins) (r % cfg.dec.bins) = true := hrm.2
      rw [maskB, Bool.or_eq_true, decide_eq_true_iff, decide_eq_true_iff] at hmb
      exact hmb
    · rintro ⟨hi, hj, hor⟩
      have hny : 0 < cfg.dec.bins := by omega
      have hdiv : (cfg.dec.bins * i + j) / cfg.dec.bins = i := by
        rw [Nat.mul_add_div hny, Nat.div_eq_of_lt hj, Nat.add_zero]
      have hmod : (cfg.dec.bins * i + j) % cfg.dec.bins = j := by
        rw [Nat.mul_add_mod, Nat.mod_eq_of_lt hj]
      apply List.mem_map.mpr
      refine ⟨cfg.dec.bins * i + j, ?_, by rw [hdiv, hmod]⟩
      apply List.mem_filter.mpr
      constructor
      · apply List.mem_range.mpr
        calc cfg.dec.bins * i + j < cfg.dec.bins * i + cfg.dec.bins :=
              Nat.add_lt_add_left hj _
          _ = cfg.dec.bins * (i + 1) := by ring
          _ ≤ cfg.dec.bins * cfg.ra.bins := Nat.mul_le_mul_left _ (by omega)
          _ = cfg.ra.bins * cfg.dec.bins := Nat.mul_comm _ _
      · rw [maskRavel, hdiv, hmod, maskB, Bool.or_eq_true,
          decide_eq_true_iff, decide_eq_true_iff]
        exact hor
  refine ⟨hiff, ?_⟩
  rintro ⟨hmem, hR0, hD0⟩
  rcases (hiff.mp hmem).2.2 with h | h
  · rw [hR0] at h
    exact lt_irrefl 0 h
  · rw [hD0] at h
    exact lt_irrefl 0 h

/-! ### Claim C1: angzD rows are the masked nonzero accumulations -/

/-- Claim C1, counterexample: with an observed catalog containing a
zero-weight point in a cell the random catalog occupies, the CSR matrix
stores an explicit zero: .data (the count column) still holds that zero value
while nonzero() (the iAlign/iZ pairs) omits it, so the emitted count column is
not the per-nonzero-key accumulation the claim describes and a zero
accumulated value is emitted. -/
theorem angzD_rows_zero_weight_cex :
    ¬ angzDRowsMatchSpec cfgEx ctlgRex ctlgDzero := by
  with_unfolding_all decide

/-- Claim C1, amended: provided every observed point weight is strictly
positive (so no stored entry accumulates to zero), every row of the angzD
table carries count = the sum of the weights of the points landing on its
(aligned index, z-bin) key and err2 = the sum of their squared weights, only
keys with nonzero accumulated value surviving the occupancy mask are emitted,
and points at unmasked aligned indices are dropped without error. -/
theorem angzD_rows_match (cfg : Config) (R D : List CatPoint)
    (hw : ∀ p ∈ D, 0 < p.weight) : angzDRowsMatchSpec cfg R D := by
  have he := nzKeys_eq_maskedKeys cfg R hw
  refine ⟨?_, ?_, ?_⟩
  · rw [he]
    rfl
  · rw [he]
    rfl
  · intro rc hrc
    have h2 := List.mem_filter.mp hrc
    refine ⟨(List.mem_filter.mp h2.1).2, ?_⟩
    exact of_decide_eq_true h2.2

/-- Witness for claim C1's amended theorem at a concrete positive-weight
observed catalog. -/
theorem angzD_rows_match_witness : angzDRowsMatchSpec cfgEx ctlgRex ctlgDpos :=
  angzD_rows_match cfgEx ctlgRex ctlgDpos (by with_unfolding_all decide)

/-! ### Claim C10: positional alignment of the four angzD columns -/

/-- Claim C10: when every observed point weight is strictly positive, the four
angzD columns have equal length and the k-th count and err2 entries are the
accumulated sums of the cell named by the k-th (iAlign, iZ) pair. -/
theorem angzD_cols_aligned (cfg : Config) (R D : List CatPoint)
    (hw : ∀ p ∈ D, 0 < p.weight) : angzDColsAligned cfg R D := by
  have he := nzKeys_eq_maskedKeys cfg R hw
  have hlen : (nzKeys cfg R D).length = (maskedKeys cfg R D).length := by rw [he]
  refine ⟨?_, ?_, ?_, ?_⟩
  · rw [iAlignCol, countCol, List.length_map, List.length_map, hlen]
  · rw [iZCol, countCol, List.length_map, List.length_map, hlen]
  · rw [err2Col, countCol, List.length_map, List.length_map]
  · intro k hk
    have hkm : k < (maskedKeys cfg R D).length := by omega
    refine ⟨?_, ?_, ?_, ?_⟩
    · rw [countCol, getD_map_lt (accumW cfg D) _ k hkm 0 (0, 0), he]
    · rw [err2Col, getD_map_lt (accumW2 cfg D) _ k hkm 0 (0, 0), he]
    · rw [iAlignCol, getD_map_lt (fun rc => rowOf cfg R D rc.1) _ k (by omega) 0 (0, 0)]
    · rw [iZCol, getD_map_lt (fun rc => rc.2) _ k (by omega) 0 (0, 0)]

/-- Witness for claim C10's theorem at a concrete positive-weight observed
catalog. -/
theorem angzD_cols_aligned_witness : angzDColsAligned cfgEx ctlgRex ctlgDpos :=
  angzD_cols_aligned cfgEx ctlgRex ctlgDpos (by with_unfolding_all decide)

/-! ### Claim C2: iAlign joins back to the ang table rows -/

theorem getD_of_lt {α : Type} (l : List α) (k : Nat) (hk : k < l.length) (d : α) :
    l.getD k d = l.get ⟨k, hk⟩ := by
  rw [List.getD_eq_getElem?_getD, List.getElem?_eq_getElem hk]
  rfl

/-- Claim C2: every iAlign of the angzD table is a valid index into the ang
table's row list; the (binRA, binDec) row found there ravels back (with the
flattening binDec-count * binRA + binDec, the same C order and bin counts as
the mask) to the nonzero coordinate's flat index, and every observed point
contributing to that coordinate lies in exactly that cell. -/
theorem angzD_joins_back (cfg : Config) (R D : List CatPoint)
    (hdec : 1 ≤ cfg.dec.bins) (rc : Nat × Nat) (hrc : rc ∈ nzKeys cfg R D) :
    joinsBack cfg R D rc := by
  have hmk : rc ∈ maskedKeys cfg R D := (List.mem_filter.mp hrc).1
  have hcsr : rc ∈ csrKeys cfg D := (List.mem_filter.mp hmk).1
  have hmask : maskRavel cfg R D rc.1 = true := (List.mem_filter.mp hmk).2
  have hlt : rc.1 < cfg.ra.bins * cfg.dec.bins := mem_csrKeys_lt hcsr
  have hmem : rc.1 ∈ maskedCells cfg R D := by
    rw [maskedCells]
    exact List.mem_filter.mpr ⟨List.mem_range.mpr hlt, hmask⟩
  have hidx : (maskedCells cfg R D).indexOf rc.1 < (maskedCells cfg R D).length :=
    List.indexOf_lt_length.mpr hmem
  have hget : (maskedCells cfg R D).getD ((maskedCells cfg R D).indexOf rc.1) 0 = rc.1 := by
    rw [getD_of_lt _ _ hidx]
    exact List.indexOf_get hidx
  have hlen : (angRows cfg R D).length = (maskedCells cfg R D).length := by
    rw [angRows, List.length_map]
  have hrowget : (angRows cfg R D).getD (rowOf cfg R D rc.1) (0, 0) =
      (rc.1 / cfg.dec.bins, rc.1 % cfg.dec.bins) := by
    rw [angRows, rowOf,
      getD_map_lt (fun r => (r / cfg.dec.bins, r % cfg.dec.bins)) _ _ hidx (0, 0) 0, hget]
  have hny : 0 < cfg.dec.bins := hdec
  refine ⟨?_, ?_, ?_⟩
  · rw [rowOf, hlen]
    exact hidx
  · rw [hrowget]
    exact Nat.div_add_mod rc.1 cfg.dec.bins
  · intro p hp hj
    have hjd : jDec cfg p < cfg.dec.bins := binIdx_lt cfg.dec hdec p.dec
    have hdiv : rc.1 / cfg.dec.bins = jRA cfg p := by
      rw [← hj, jAng, Nat.mul_add_div hny, Nat.div_eq_of_lt hjd, Nat.add_zero]
    have hmod : rc.1 % cfg.dec.bins = jDec cfg p := by
      rw [← hj, jAng, Nat.mul_add_mod, Nat.mod_eq_of_lt hjd]
    rw [hrowget]
    exact ⟨hdiv.symm, hmod.symm⟩

/-- Witness for claim C2's theorem at a concrete nonzero coordinate of the
example catalogs. -/
theorem angzD_joins_back_witness : joinsBack cfgEx ctlgRex ctlgDpos (2, 0) :=
  angzD_joins_back cfgEx ctlgRex ctlgDpos (by decide) (2, 0)
    (by with_unfolding_all decide)

/-! ### Claim C9: order independence of the accumulation -/

theorem hist2_perm {sx sy : BinSpec} {l1 l2 : List (ℚ × ℚ × ℚ)}
    (h : l1.Perm l2) (i j : Nat) : hist2 sx sy l1 i j = hist2 sx sy l2 i j :=
  ((h.filter _).map _).sum_eq

theorem angD_perm {cfg : Config} {D1 D2 : List CatPoint} (h : D1.Perm D2)
    (i j : Nat) : angD cfg D1 i j = angD cfg D2 i j :=
  hist2_perm (h.map _) i j

theorem maskB_perm {cfg : Config} {R D1 D2 : List CatPoint} (h : D1.Perm D2)
    (i j : Nat) : maskB cfg R D1 i j = maskB cfg R D2 i j := by
  rw [maskB, maskB, angD_perm h]

theorem maskRavel_perm {cfg : Config} {R D1 D2 : List CatPoint} (h : D1.Perm D2)
    (r : Nat) : maskRavel cfg R D1 r = maskRavel cfg R D2 r := by
  rw [maskRavel, maskRavel, maskB_perm h]

theorem maskedCells_perm {cfg : Config} {R D1 D2 : List CatPoint}
    (h : D1.Perm D2) : maskedCells cfg R D1 = maskedCells cfg R D2 :=
  List.filter_congr (fun r _ => maskRavel_perm h r)

theorem occupied_perm {cfg : Config} {D1 D2 : List CatPoint} (h : D1.Perm D2)
    (r c : Nat) : occupied cfg D1 r c = occupied cfg D2 r c := by
  rw [Bool.eq_iff_iff, occupied, occupied, List.any_eq_true, List.any_eq_true]
  constructor
  · rintro ⟨p, hp, hpred⟩
    exact ⟨p, h.mem_iff.mp hp, hpred⟩
  · rintro ⟨p, hp, hpred⟩
    exact ⟨p, h.mem_iff.mpr hp, hpred⟩

theorem csrKeys_perm {cfg : Config} {D1 D2 : List CatPoint} (h : D1.Perm D2) :
    csrKeys cfg D1 = csrKeys cfg D2 := by
  rw [csrKeys, csrKeys]
  congr 1
  exact List.filter_congr (fun k _ => occupied_perm h _ _)

theorem accumF_perm {cfg : Config} {D1 D2 : List CatPoint} (h : D1.Perm D2)
    (f : CatPoint → ℚ) (rc : Nat × Nat) : accumF cfg D1 f rc = accumF cfg D2 f rc :=
  ((h.filter _).map f).sum_eq

theorem maskedKeys_perm {cfg : Config} {R D1 D2 : List CatPoint}
    (h : D1.Perm D2) : maskedKeys cfg R D1 = maskedKeys cfg R D2 := by
  rw [maskedKeys, maskedKeys, csrKeys_perm h]
  exact List.filter_congr (fun rc _ => by rw [maskRavel_perm h])

/-- Claim C9: processing the observed catalog in any permuted order yields
an identical angzD table — the same nonzero keys and identical iAlign, iZ,
count and err2 columns — because the per-cell accumulation is commutative and
associative. -/
theorem angzD_perm_invariant (cfg : Config) (R D1 D2 : List CatPoint)
    (h : D1.Perm D2) :
    nzKeys cfg R D1 = nzKeys cfg R D2 ∧
    iAlignCol cfg R D1 = iAlignCol cfg R D2 ∧
    iZCol cfg R D1 = iZCol cfg R D2 ∧
    countCol cfg R D1 = countCol cfg R D2 ∧
    err2Col cfg R D1 = err2Col cfg R D2 := by
  have hacc : ∀ rc : Nat × Nat, accumW cfg D1 rc = accumW cfg D2 rc :=
    fun rc => accumF_perm h _ rc
  have hacc2 : ∀ rc : Nat × Nat, accumW2 cfg D1 rc = accumW2 cfg D2 rc :=
    fun rc => accumF_perm h _ rc
  have hnz : nzKeys cfg R D1 = nzKeys cfg R D2 := by
    rw [nzKeys, nzKeys, maskedKeys_perm h]
    exact List.filter_congr (fun rc _ => by rw [hacc rc])
  refine ⟨hnz, ?_, ?_, ?_, ?_⟩
  · rw [iAlignCol, iAlignCol, hnz]
    exact List.map_congr_left (fun rc _ => by rw [rowOf, rowOf, maskedCells_perm h])
  · rw [iZCol, iZCol, hnz]
  · rw [countCol, countCol, maskedKeys_perm h]
    exact List.map_congr_left (fun rc _ => hacc rc)
  · rw [err2Col, err2Col, maskedKeys_perm h]
    exact List.map_congr_left (fun rc _ => hacc2 rc)

/-- Witness for claim C9's theorem: the two-point example catalog and its
swap. -/
theorem angzD_perm_invariant_witness :
    nzKeys cfgEx ctlgRex ctlgDswap = nzKeys cfgEx ctlgRex ctlgDpos ∧
    iAlignCol cfgEx ctlgRex ctlgDswap = iAlignCol cfgEx ctlgRex ctlgDpos ∧
    iZCol cfgEx ctlgRex ctlgDswap = iZCol cfgEx ctlgRex ctlgDpos ∧
    countCol cfgEx ctlgRex ctlgDswap = countCol cfgEx ctlgRex ctlgDpos ∧
    err2Col cfgEx ctlgRex ctlgDswap = err2Col cfgEx ctlgRex ctlgDpos :=
  angzD_perm_invariant cfgEx ctlgRex ctlgDswap ctlgDpos
    (by with_unfolding_all decide)

/-! ### Claim C3: normalization of the redshift PDF -/

theorem osum_map_some (l : List ℚ) : osum (l.map some) = some l.sum := by
  induction l with
  | nil => rfl
  | cons x l ih =>
    rw [List.map_cons, osum, List.foldr_cons]
    rw [show (l.map some).foldr oadd (some 0) = osum (l.map some) from rfl, ih]
    rw [List.sum_cons]
    rfl

theorem qfrq_cons (s : BinSpec) (vw : ℚ × ℚ) (l : List (ℚ × ℚ)) (i : Nat) :
    qfrq s (vw :: l) i =
      (if inR s vw.1 && (binIdx s vw.1 == i) then vw.2 else 0) + qfrq s l i := by
  rw [qfrq, List.filter_cons]
  by_cases h : (inR s vw.1 && (binIdx s vw.1 == i)) = true
  · rw [if_pos h, if_pos h, List.map_cons, List.sum_cons, qfrq]
  · rw [if_neg h, if_neg h, qfrq, zero_add]

theorem ofrq_cons (s : BinSpec) (vw : ℚ × Option ℚ) (l : List (ℚ × Option ℚ))
    (i : Nat) :
    ofrq s (vw :: l) i =
      if inR s vw.1 && (binIdx s vw.1 == i) then oadd vw.2 (ofrq s l i)
      else ofrq s l i := by
  rw [ofrq, List.filter_cons]
  by_cases h : (inR s vw.1 && (binIdx s vw.1 == i)) = true
  · rw [if_pos h, if_pos h, List.map_cons]
    rfl
  · rw [if_neg h, if_neg h]
    rfl

theorem ofrq_map_some (s : BinSpec) (i : Nat) :
    ∀ (l : List (ℚ × ℚ)),
      ofrq s (l.map (fun vw => (vw.1, some vw.2))) i = some (qfrq s l i)
  | [] => rfl
  | vw :: l => by
    have ih := ofrq_map_some s i l
    rw [List.map_cons, ofrq_cons, qfrq_cons]
    by_cases hc : (inR s vw.1 && (binIdx s vw.1 == i)) = true
    · rw [if_pos hc, if_pos hc, ih]
      rfl
    · rw [if_neg hc, if_neg hc, ih, zero_add]

theorem sum_map_add_distrib (L : List Nat) (f g : Nat → ℚ) :
    (L.map (fun i => f i + g i)).sum = (L.map f).sum + (L.map g).sum := by
  induction L with
  | nil => simp
  | cons x L ih =>
    rw [List.map_cons, List.map_cons, List.map_cons, List.sum_cons, List.sum_cons,
      List.sum_cons, ih]
    ring

theorem sum_range_indicator (j : Nat) (w : ℚ) :
    ∀ (n : Nat), j < n →
      ((List.range n).map (fun i => if j == i then w else 0)).sum = w := by
  intro n
  induction n with
  | zero => omega
  | succ n ih =>
    intro hj
    rw [List.range_succ, List.map_append, List.sum_append]
    by_cases h : j = n
    · subst h
      have hz : ((List.range j).map (fun i => if j == i then w else 0)).sum = 0 := by
        apply List.sum_eq_zero
        intro x hx
        obtain ⟨i, hi, rfl⟩ := List.mem_map.mp hx
        have hij : i < j := List.mem_range.mp hi
        rw [if_neg (by simp; omega)]
      rw [hz, zero_add, List.map_cons, List.map_nil, List.sum_cons, List.sum_nil,
        if_pos (by simp), add_zero]
    · have hjn : j < n := by omega
      rw [ih hjn, List.map_cons, List.map_nil, List.sum_cons, List.sum_nil,
        if_neg (by simp; omega), add_zero, add_zero]

theorem qfrq_total (s : BinSpec) (hb : 1 ≤ s.bins) :
    ∀ (l : List (ℚ × ℚ)), (∀ vw ∈ l, inR s vw.1 = true) →
      ((List.range s.bins).map (qfrq s l)).sum = (l.map Prod.snd).sum := by
  intro l
  induction l with
  | nil =>
    intro _
    rw [List.map_nil, List.sum_nil]
    apply List.sum_eq_zero
    intro x hx
    obtain ⟨i, _, rfl⟩ := List.mem_map.mp hx
    rfl
  | cons vw l ih =>
    intro hin
    have hvw : inR s vw.1 = true := hin vw (List.mem_cons_self _ _)
    have h1 : ∀ x ∈ List.range s.bins, qfrq s (vw :: l) x =
        (fun i => (if (binIdx s vw.1 == i) then vw.2 else 0) + qfrq s l i) x := by
      intro x _
      rw [qfrq_cons]
      rw [show (inR s vw.1 && (binIdx s vw.1 == x)) = (binIdx s vw.1 == x) from by
        rw [hvw, Bool.true_and]]
    rw [List.map_congr_left h1, sum_map_add_distrib,
      sum_range_indicator (binIdx s vw.1) vw.2 s.bins (binIdx_lt s hb vw.1),
      ih (fun x hx => hin x (List.mem_cons_of_mem _ hx)), List.map_cons,
      List.sum_cons]

theorem wZsum_cons (p : CatPoint) (c : List CatPoint) :
    wZsum (p :: c) = p.weightZ + wZsum c := by
  rw [wZsum, List.map_cons, List.sum_cons]
  rfl

theorem sum_map_div (c : List CatPoint) (S : ℚ) :
    (c.map (fun p => p.weightZ / S)).sum = wZsum c / S := by
  induction c with
  | nil => simp [wZsum]
  | cons p c ih =>
    rw [List.map_cons, List.sum_cons, ih, wZsum_cons]
    ring

/-- Claim C3, counterexample: a non-empty random catalog with positive weightZ
sum but one z value outside the configured range makes the pdfZ probabilities
sum to 1/2, not 1 — the out-of-range point's normalized weight is silently
dropped by the histogram, so the claim's "no in-range precondition" part
fails. -/
theorem pdfZ_out_of_range_cex :
    ctlgOutOfRange ≠ [] ∧ 0 < wZsum ctlgOutOfRange ∧
    osum ((pdfZ zspec2 ctlgOutOfRange).map Prod.snd) ≠ some 1 := by
  with_unfolding_all decide

/-- Claim C3, amended: for every random catalog with positive weightZ sum all
of whose z values lie inside the configured range (and a valid binning with at
least one bin), the pdfZ probabilities are the weightZ values normalized by
their own sum and histogrammed over the z binning, and they sum to exactly 1
in exact arithmetic. -/
theorem pdfZ_sums_to_one (s : BinSpec) (c : List CatPoint) (hb : 1 ≤ s.bins)
    (hS : 0 < wZsum c) (hin : ∀ p ∈ c, inR s p.z = true) :
    osum ((pdfZ s c).map Prod.snd) = some 1 := by
  have hS0 : wZsum c ≠ 0 := ne_of_gt hS
  have hzw : zWeighted c =
      (c.map (fun p => (p.z, p.weightZ / wZsum c))).map (fun vw => (vw.1, some vw.2)) := by
    rw [zWeighted, List.map_map]
    apply List.map_congr_left
    intro p _
    simp [fdiv, hS0]
  have h1 : ∀ i ∈ List.range s.bins, ofrq s (zWeighted c) i =
      (fun i => some (qfrq s (c.map (fun p => (p.z, p.weightZ / wZsum c))) i)) i := by
    intro i _
    rw [hzw, ofrq_map_some]
  rw [pdfZ_map_snd, frqList, List.map_congr_left h1]
  rw [show (List.range s.bins).map
      (fun i => some (qfrq s (c.map (fun p => (p.z, p.weightZ / wZsum c))) i)) =
      ((List.range s.bins).map
        (qfrq s (c.map (fun p => (p.z, p.weightZ / wZsum c))))).map some from by
    rw [List.map_map]; rfl]
  rw [osum_map_some]
  have hinL : ∀ vw ∈ c.map (fun p => (p.z, p.weightZ / wZsum c)), inR s vw.1 = true := by
    intro vw hvw
    obtain ⟨p, hp, rfl⟩ := List.mem_map.mp hvw
    exact hin p hp
  rw [qfrq_total s hb _ hinL]
  rw [show (c.map (fun p => (p.z, p.weightZ / wZsum c))).map Prod.snd =
      c.map (fun p => p.weightZ / wZsum c) from by rw [List.map_map]; rfl]
  rw [sum_map_div, div_self hS0]

/-- Witness for claim C3's amended theorem: the spec's scenario 7 catalog,
whose probabilities are 1/3 in each of the three bins. -/
theorem pdfZ_sums_to_one_witness :
    osum ((pdfZ zspec3 ctlgScenario7).map Prod.snd) = some 1 :=
  pdfZ_sums_to_one zspec3 ctlgScenario7 (by decide)
    (by with_unfolding_all decide) (by with_unfolding_all decide)

end Lasspia
